import Mathlib

/-!
Shallow embedding of the chain post-processing and optimal-statistic
aggregation code of the 12.5-year stochastic-analysis notebooks.
Floating-point values are modelled as rationals; `np.sqrt`, `np.log`,
`np.cos` and `10 ** x` act on real numbers.  A Python float division
whose divisor is zero has no value (it raises `ZeroDivisionError`), so
divisions that can see a zero divisor are modelled with `Option`, with
`none` standing for the absence of a result.
-/

namespace PTA

/-- Accumulator loop of `weightedavg` in
`frequentist_optimalstatistic_analysis.ipynb`: starting from
`(weights, avg)`, for each `(r, s)` of the zipped list it adds `1/(s*s)`
to `weights` and `r/(s*s)` to `avg`; a zero divisor `s*s` admits no
rational value and is modelled as `none`. -/
def wavgAcc : ℚ × ℚ → List (ℚ × ℚ) → Option (ℚ × ℚ)
  | acc, [] => some acc
  | (w, a), (r, s) :: rest =>
      if s * s = 0 then none
      else wavgAcc (w + 1 / (s * s), a + r / (s * s)) rest

/-- Rational core of `weightedavg`: runs the accumulator loop over
`zip(rho, sig)` from `(0, 0)` and returns `(avg/weights, 1/weights)`,
the weighted mean together with its variance; the final division by a
zero `weights` raises in Python and is modelled as `none`. -/
def weightedavgQ (rho sig : List ℚ) : Option (ℚ × ℚ) :=
  match wavgAcc (0, 0) (rho.zip sig) with
  | none => none
  | some (w, a) => if w = 0 then none else some (a / w, 1 / w)

/-- Embedding of `weightedavg(rho, sig)` of the notebook: returns
`(avg/weights, np.sqrt(1/weights))`. -/
noncomputable def weightedavg (rho sig : List ℚ) : Option (ℚ × ℝ) :=
  (weightedavgQ rho sig).map fun p => (p.1, Real.sqrt ((p.2 : ℚ) : ℝ))

/-- Specification reference value: the sum `Σ 1/σᵢ²` over a list of
`(ρ, σ)` pairs. -/
def sumInvVar (l : List (ℚ × ℚ)) : ℚ :=
  (l.map fun p => 1 / (p.2 * p.2)).sum

/-- Specification reference value: the sum `Σ ρᵢ/σᵢ²` over a list of
`(ρ, σ)` pairs. -/
def sumWeighted (l : List (ℚ × ℚ)) : ℚ :=
  (l.map fun p => p.1 / (p.2 * p.2)).sum

/-- Minimum of a list of rationals (`0` on the empty list). -/
def minList : List ℚ → ℚ
  | [] => 0
  | x :: xs => xs.foldl min x

/-- Maximum of a list of rationals (`0` on the empty list). -/
def maxList : List ℚ → ℚ
  | [] => 0
  | x :: xs => xs.foldl max x

lemma wavgAcc_spec (l : List (ℚ × ℚ)) : ∀ w a : ℚ,
    wavgAcc (w, a) l =
      if ∀ p ∈ l, p.2 ≠ 0 then some (w + sumInvVar l, a + sumWeighted l) else none := by
  induction l with
  | nil => intro w a; simp [wavgAcc, sumInvVar, sumWeighted]
  | cons p rest ih =>
      intro w a
      obtain ⟨r, s⟩ := p
      by_cases hs : s = 0
      · simp [wavgAcc, hs]
      · have hss : s * s ≠ 0 := mul_ne_zero hs hs
        rw [wavgAcc, if_neg hss, ih]
        by_cases hrest : ∀ p ∈ rest, p.2 ≠ 0
        · have hall : ∀ p ∈ (r, s) :: rest, p.2 ≠ 0 := by
            intro q hq
            rcases List.mem_cons.mp hq with h | h
            · subst h; exact hs
            · exact hrest q h
          rw [if_pos hrest, if_pos hall]
          simp only [sumInvVar, sumWeighted, List.map_cons, List.sum_cons]
          refine congrArg some (Prod.ext ?_ ?_) <;> dsimp <;> ring
        · have hnall : ¬ ∀ p ∈ (r, s) :: rest, p.2 ≠ 0 := by
            intro h
            exact hrest fun q hq => h q (List.mem_cons_of_mem _ hq)
          rw [if_neg hrest, if_neg hnall]

lemma sumInvVar_pos (l : List (ℚ × ℚ)) (hne : l ≠ [])
    (hpos : ∀ p ∈ l, 0 < p.2) : 0 < sumInvVar l := by
  induction l with
  | nil => exact absurd rfl hne
  | cons p rest ih =>
      have hp : 0 < p.2 := hpos p (List.mem_cons_self _ _)
      have hterm : 0 < 1 / (p.2 * p.2) := by positivity
      rcases List.eq_nil_or_concat rest with h | h
      · subst h; simp [sumInvVar]; positivity
      · have hrest : 0 < sumInvVar rest := by
          apply ih
          · rcases h with ⟨l2, a, rfl⟩; simp
          · intro q hq; exact hpos q (List.mem_cons_of_mem _ hq)
        simp only [sumInvVar, List.map_cons, List.sum_cons] at *
        linarith

lemma weightedavgQ_eq (rho sig : List ℚ)
    (hne : rho ≠ []) (hlen : rho.length = sig.length)
    (hpos : ∀ s ∈ sig, 0 < s) :
    weightedavgQ rho sig =
      some (sumWeighted (rho.zip sig) / sumInvVar (rho.zip sig),
            1 / sumInvVar (rho.zip sig)) := by
  have hz : ∀ p ∈ rho.zip sig, 0 < p.2 := by
    intro p hp
    exact hpos p.2 ((List.of_mem_zip hp).2)
  have hzne : rho.zip sig ≠ [] := by
    have : (rho.zip sig).length = rho.length := by
      rw [List.length_zip, hlen, Nat.min_self]
    intro h
    rw [h] at this
    exact hne (List.eq_nil_of_length_eq_zero this.symm)
  have hiv : 0 < sumInvVar (rho.zip sig) := sumInvVar_pos _ hzne hz
  have hzn : ∀ p ∈ rho.zip sig, p.2 ≠ 0 := fun p hp => ne_of_gt (hz p hp)
  rw [weightedavgQ, wavgAcc_spec, if_pos hzn]
  simp only [zero_add]
  rw [if_neg (ne_of_gt hiv)]

/-- C1: for nonempty equal-length `rho`, `sigma` with every `sigma`
entry strictly positive, `weightedavg` returns exactly the closed-form
pair `(Σρᵢ/σᵢ² / Σ1/σᵢ², sqrt (1 / Σ1/σᵢ²))`. -/
theorem weightedavg_eq_closed_form (rho sig : List ℚ)
    (hne : rho ≠ []) (hlen : rho.length = sig.length)
    (hpos : ∀ s ∈ sig, 0 < s) :
    weightedavg rho sig =
      some (sumWeighted (rho.zip sig) / sumInvVar (rho.zip sig),
            Real.sqrt ((1 / sumInvVar (rho.zip sig) : ℚ) : ℝ)) := by
  rw [weightedavg, weightedavgQ_eq rho sig hne hlen hpos, Option.map_some']

/-- Witness for C1 at `rho = [3]`, `sig = [2]`. -/
theorem weightedavg_eq_closed_form_witness :
    weightedavg [(3 : ℚ)] [(2 : ℚ)] =
      some (sumWeighted ([(3 : ℚ)].zip [(2 : ℚ)]) / sumInvVar ([(3 : ℚ)].zip [(2 : ℚ)]),
            Real.sqrt ((1 / sumInvVar ([(3 : ℚ)].zip [(2 : ℚ)]) : ℚ) : ℝ)) :=
  weightedavg_eq_closed_form [3] [2] (by decide) (by decide) (by decide)

lemma foldl_min_le_init (xs : List ℚ) : ∀ x : ℚ, xs.foldl min x ≤ x := by
  induction xs with
  | nil => intro x; simp
  | cons y ys ih =>
      intro x
      calc (y :: ys).foldl min x = ys.foldl min (min x y) := rfl
        _ ≤ min x y := ih _
        _ ≤ x := min_le_left _ _

lemma foldl_min_le_mem (xs : List ℚ) : ∀ x y : ℚ, y ∈ xs → xs.foldl min x ≤ y := by
  induction xs with
  | nil => intro x y hy; simp at hy
  | cons z zs ih =>
      intro x y hy
      rcases List.mem_cons.mp hy with h | h
      · subst h
        calc (y :: zs).foldl min x = zs.foldl min (min x y) := rfl
          _ ≤ min x y := foldl_min_le_init _ _
          _ ≤ y := min_le_right _ _
      · exact ih (min x z) y h

lemma le_foldl_max_init (xs : List ℚ) : ∀ x : ℚ, x ≤ xs.foldl max x := by
  induction xs with
  | nil => intro x; simp
  | cons y ys ih =>
      intro x
      calc x ≤ max x y := le_max_left _ _
        _ ≤ ys.foldl max (max x y) := ih _
        _ = (y :: ys).foldl max x := rfl

lemma le_foldl_max_mem (xs : List ℚ) : ∀ x y : ℚ, y ∈ xs → y ≤ xs.foldl max x := by
  induction xs with
  | nil => intro x y hy; simp at hy
  | cons z zs ih =>
      intro x y hy
      rcases List.mem_cons.mp hy with h | h
      · subst h
        calc y ≤ max x y := le_max_right _ _
          _ ≤ zs.foldl max (max x y) := le_foldl_max_init _ _
          _ = (y :: zs).foldl max x := rfl
      · exact ih (max x z) y h

lemma minList_le (l : List ℚ) (x : ℚ) (hx : x ∈ l) : minList l ≤ x := by
  cases l with
  | nil => simp at hx
  | cons y ys =>
      rcases List.mem_cons.mp hx with h | h
      · subst h; exact foldl_min_le_init ys x
      · exact foldl_min_le_mem ys y x h

lemma le_maxList (l : List ℚ) (x : ℚ) (hx : x ∈ l) : x ≤ maxList l := by
  cases l with
  | nil => simp at hx
  | cons y ys =>
      rcases List.mem_cons.mp hx with h | h
      · subst h; exact le_foldl_max_init ys x
      · exact le_foldl_max_mem ys y x h

lemma sumWeighted_bounds (l : List (ℚ × ℚ)) (m M : ℚ)
    (h : ∀ p ∈ l, m ≤ p.1 ∧ p.1 ≤ M ∧ 0 < p.2) :
    m * sumInvVar l ≤ sumWeighted l ∧ sumWeighted l ≤ M * sumInvVar l := by
  induction l with
  | nil => simp [sumInvVar, sumWeighted]
  | cons p rest ih =>
      obtain ⟨r, s⟩ := p
      obtain ⟨hm, hM, hs⟩ := h (r, s) (List.mem_cons_self _ _)
      have hrest := ih fun q hq => h q (List.mem_cons_of_mem _ hq)
      have h1 : m * (1 / (s * s)) ≤ r / (s * s) := by
        rw [div_eq_mul_one_div r]
        exact mul_le_mul_of_nonneg_right hm (by positivity)
      have h2 : r / (s * s) ≤ M * (1 / (s * s)) := by
        rw [div_eq_mul_one_div r]
        exact mul_le_mul_of_nonneg_right hM (by positivity)
      simp only [sumInvVar, sumWeighted, List.map_cons, List.sum_cons] at *
      rw [mul_add, mul_add]
      exact ⟨by linarith [hrest.1], by linarith [hrest.2]⟩

/-- C7: for nonempty equal-length `rho`, `sigma` with every `sigma`
entry strictly positive, the weighted mean returned by `weightedavg`
lies within the closed interval `[min rho, max rho]`. -/
theorem weightedavg_mu_in_range (rho sig : List ℚ)
    (hne : rho ≠ []) (hlen : rho.length = sig.length)
    (hpos : ∀ s ∈ sig, 0 < s) :
    ∃ p : ℚ × ℝ, weightedavg rho sig = some p ∧
      minList rho ≤ p.1 ∧ p.1 ≤ maxList rho := by
  have hz : ∀ p ∈ rho.zip sig,
      minList rho ≤ p.1 ∧ p.1 ≤ maxList rho ∧ 0 < p.2 := by
    intro p hp
    obtain ⟨hr, hs⟩ := List.of_mem_zip hp
    exact ⟨minList_le rho p.1 hr, le_maxList rho p.1 hr, hpos p.2 hs⟩
  have hzne : rho.zip sig ≠ [] := by
    have hlz : (rho.zip sig).length = rho.length := by
      rw [List.length_zip, hlen, Nat.min_self]
    intro h
    rw [h] at hlz
    exact hne (List.eq_nil_of_length_eq_zero hlz.symm)
  have hiv : 0 < sumInvVar (rho.zip sig) :=
    sumInvVar_pos _ hzne fun p hp => (hz p hp).2.2
  obtain ⟨hlo, hhi⟩ := sumWeighted_bounds (rho.zip sig) (minList rho) (maxList rho) hz
  refine ⟨(sumWeighted (rho.zip sig) / sumInvVar (rho.zip sig),
      Real.sqrt ((1 / sumInvVar (rho.zip sig) : ℚ) : ℝ)), ?_, ?_, ?_⟩
  · rw [weightedavg, weightedavgQ_eq rho sig hne hlen hpos, Option.map_some']
  · exact (le_div_iff₀ hiv).mpr hlo
  · exact (div_le_iff₀ hiv).mpr hhi

/-- Witness for C7 at `rho = [1, 3]`, `sig = [1, 1]`. -/
theorem weightedavg_mu_in_range_witness :
    ∃ p : ℚ × ℝ, weightedavg [(1 : ℚ), 3] [(1 : ℚ), 1] = some p ∧
      minList [(1 : ℚ), 3] ≤ p.1 ∧ p.1 ≤ maxList [(1 : ℚ), 3] :=
  weightedavg_mu_in_range [1, 3] [1, 1] (by decide) (by decide) (by decide)

/-- Embedding of the fixed-count binning `while` loop of the notebook:
starting at `i = 0`, take the slice `[i : i+n)` of the list and advance
`i` by `n` until the list is exhausted (the guard `n = 0`, under which
the Python loop would never terminate, returns `[]`). -/
def chunks (n : ℕ) (l : List (ℚ × ℚ × ℚ)) : List (List (ℚ × ℚ × ℚ)) :=
  if h : n = 0 then [] else
    match l with
    | [] => []
    | x :: xs => ((x :: xs).take n) :: chunks n ((x :: xs).drop n)
termination_by l.length
decreasing_by simp only [List.length_drop, List.length_cons]; omega

/-- Embedding of `idx = np.argsort(xi)` followed by reindexing the
three arrays: the `(ξ, ρ, σ)` triples sorted by ascending `ξ`. -/
def sortPairs (l : List (ℚ × ℚ × ℚ)) : List (ℚ × ℚ × ℚ) :=
  l.mergeSort fun p q => decide (p.1 ≤ q.1)

lemma chunks_nil (n : ℕ) : chunks n [] = [] := by
  rw [chunks]
  split <;> rfl

lemma chunks_cons (n : ℕ) (hn : 0 < n) (x : ℚ × ℚ × ℚ) (xs : List (ℚ × ℚ × ℚ)) :
    chunks n (x :: xs) = ((x :: xs).take n) :: chunks n ((x :: xs).drop n) := by
  rw [chunks, dif_neg (Nat.pos_iff_ne_zero.mp hn)]

lemma chunks_flatten (n : ℕ) (hn : 0 < n) :
    ∀ l : List (ℚ × ℚ × ℚ), (chunks n l).flatten = l
  | [] => by rw [chunks_nil]; rfl
  | x :: xs => by
      rw [chunks_cons n hn, List.flatten_cons,
        chunks_flatten n hn ((x :: xs).drop n), List.take_append_drop]
termination_by l => l.length
decreasing_by simp only [List.length_drop, List.length_cons]; omega

lemma chunks_length (n : ℕ) (hn : 0 < n) :
    ∀ l : List (ℚ × ℚ × ℚ), (chunks n l).length = l.length ⌈/⌉ n
  | [] => by
      rw [chunks_nil]
      simp [Nat.ceilDiv_eq_add_pred_div, Nat.div_eq_of_lt (by omega : 0 + n - 1 < n)]
  | x :: xs => by
      rw [chunks_cons n hn, List.length_cons,
        chunks_length n hn ((x :: xs).drop n)]
      rw [List.length_drop, List.length_cons,
        Nat.ceilDiv_eq_add_pred_div, Nat.ceilDiv_eq_add_pred_div]
      have h2 : xs.length + 1 + n - 1 = xs.length + n := by omega
      rw [h2, Nat.add_div_right _ hn]
      rcases Nat.lt_or_ge (xs.length + 1) n with hlt | hge
      · have ha : xs.length + 1 - n = 0 := by omega
        rw [ha, Nat.div_eq_of_lt (by omega : 0 + n - 1 < n),
          Nat.div_eq_of_lt (by omega : xs.length < n)]
      · have h1 : xs.length + 1 - n + n - 1 = xs.length := by omega
        rw [h1]
termination_by l => l.length
decreasing_by simp only [List.length_drop, List.length_cons]; omega

lemma chunks_ne_nil (n : ℕ) (hn : 0 < n) (l : List (ℚ × ℚ × ℚ)) (hl : l ≠ []) :
    chunks n l ≠ [] := by
  cases l with
  | nil => exact absurd rfl hl
  | cons x xs => rw [chunks_cons n hn]; exact List.cons_ne_nil _ _

lemma chunks_dropLast_length (n : ℕ) (hn : 0 < n) :
    ∀ l : List (ℚ × ℚ × ℚ), ∀ b ∈ (chunks n l).dropLast, b.length = n
  | [] => by rw [chunks_nil]; intro b hb; simp at hb
  | x :: xs => by
      intro b hb
      rw [chunks_cons n hn] at hb
      by_cases hne2 : (x :: xs).drop n = []
      · rw [hne2, chunks_nil] at hb
        simp at hb
      · have hlen : n ≤ xs.length + 1 := by
          by_contra hc
          exact hne2 (List.drop_eq_nil_of_le (by simp only [List.length_cons]; omega))
        rw [List.dropLast_cons_of_ne_nil (chunks_ne_nil n hn _ hne2)] at hb
        rcases List.mem_cons.mp hb with h | h
        · subst h
          rw [List.length_take, List.length_cons]
          exact Nat.min_eq_left hlen
        · exact chunks_dropLast_length n hn ((x :: xs).drop n) b h
termination_by l => l.length
decreasing_by simp only [List.length_drop, List.length_cons]; omega

lemma sortPairs_perm (l : List (ℚ × ℚ × ℚ)) : (sortPairs l).Perm l :=
  List.mergeSort_perm l _

/-- C2: for every list of `(ξ, ρ, σ)` triples and positive bin size
`N`, sorting by `ξ` and grouping into consecutive runs of `N` yields
exactly `⌈M/N⌉` bins, every bin except possibly the last has exactly
`N` members, and concatenating the bins reproduces the sorted list,
which is a permutation of the input (no pair dropped or duplicated). -/
theorem fixed_count_binning (N : ℕ) (l : List (ℚ × ℚ × ℚ)) (hN : 0 < N) :
    (chunks N (sortPairs l)).length = l.length ⌈/⌉ N ∧
    (∀ b ∈ (chunks N (sortPairs l)).dropLast, b.length = N) ∧
    (chunks N (sortPairs l)).flatten = sortPairs l ∧
    (sortPairs l).Perm l := by
  refine ⟨?_, chunks_dropLast_length N hN _, chunks_flatten N hN _, sortPairs_perm l⟩
  rw [chunks_length N hN, sortPairs, List.length_mergeSort]

/-- Witness for C2 at `N = 2` over three triples. -/
theorem fixed_count_binning_witness :
    (chunks 2 (sortPairs [((3 : ℚ), (0 : ℚ), (1 : ℚ)), (1, 0, 1), (2, 0, 1)])).length =
      ([((3 : ℚ), (0 : ℚ), (1 : ℚ)), (1, 0, 1), (2, 0, 1)] : List (ℚ × ℚ × ℚ)).length ⌈/⌉ 2 ∧
    (∀ b ∈ (chunks 2 (sortPairs [((3 : ℚ), (0 : ℚ), (1 : ℚ)), (1, 0, 1), (2, 0, 1)])).dropLast,
      b.length = 2) ∧
    (chunks 2 (sortPairs [((3 : ℚ), (0 : ℚ), (1 : ℚ)), (1, 0, 1), (2, 0, 1)])).flatten =
      sortPairs [((3 : ℚ), (0 : ℚ), (1 : ℚ)), (1, 0, 1), (2, 0, 1)] ∧
    (sortPairs [((3 : ℚ), (0 : ℚ), (1 : ℚ)), (1, 0, 1), (2, 0, 1)]).Perm
      [((3 : ℚ), (0 : ℚ), (1 : ℚ)), (1, 0, 1), (2, 0, 1)] :=
  fixed_count_binning 2 [((3 : ℚ), (0 : ℚ), (1 : ℚ)), (1, 0, 1), (2, 0, 1)] (by decide)

lemma wavgAcc_perm {l1 l2 : List (ℚ × ℚ)} (h : l1.Perm l2) (w a : ℚ) :
    wavgAcc (w, a) l1 = wavgAcc (w, a) l2 := by
  rw [wavgAcc_spec, wavgAcc_spec]
  have hmem : (∀ p ∈ l1, p.2 ≠ 0) ↔ ∀ p ∈ l2, p.2 ≠ 0 := by
    constructor <;> intro hh p hp
    · exact hh p (h.mem_iff.mpr hp)
    · exact hh p (h.mem_iff.mp hp)
  have hsiv : sumInvVar l1 = sumInvVar l2 := by
    simp only [sumInvVar]
    exact (h.map fun p => 1 / (p.2 * p.2)).sum_eq
  have hsw : sumWeighted l1 = sumWeighted l2 := by
    simp only [sumWeighted]
    exact (h.map fun p => p.1 / (p.2 * p.2)).sum_eq
  by_cases hc : ∀ p ∈ l1, p.2 ≠ 0
  · rw [if_pos hc, if_pos (hmem.mp hc), hsiv, hsw]
  · rw [if_neg hc, if_neg (hmem.not.mp hc)]

lemma weightedavgQ_perm (rho1 sig1 rho2 sig2 : List ℚ)
    (h : (rho1.zip sig1).Perm (rho2.zip sig2)) :
    weightedavgQ rho1 sig1 = weightedavgQ rho2 sig2 := by
  rw [weightedavgQ, weightedavgQ, wavgAcc_perm h]

/-- C8: a 66-triple input binned with 66 pairs per bin produces exactly
one bin holding the whole sorted list, and the weighted average of that
bin equals the weighted average of the original unsorted input. -/
theorem one_bin_of_66 (l : List (ℚ × ℚ × ℚ)) (h : l.length = 66) :
    chunks 66 (sortPairs l) = [sortPairs l] ∧
    weightedavg ((sortPairs l).map fun p => p.2.1) ((sortPairs l).map fun p => p.2.2) =
      weightedavg (l.map fun p => p.2.1) (l.map fun p => p.2.2) := by
  constructor
  · have hlen : (sortPairs l).length = 66 := by
      rw [sortPairs, List.length_mergeSort, h]
    cases hsp : sortPairs l with
    | nil => rw [hsp] at hlen; simp at hlen
    | cons x xs =>
        rw [hsp] at hlen
        rw [chunks_cons 66 (by norm_num),
          List.take_of_length_le (by rw [hlen]),
          List.drop_eq_nil_of_le (by rw [hlen]), chunks_nil]
  · have hperm : (((sortPairs l).map fun p => p.2.1).zip
        ((sortPairs l).map fun p => p.2.2)).Perm
        ((l.map fun p => p.2.1).zip (l.map fun p => p.2.2)) := by
      rw [List.zip_map', List.zip_map']
      exact (sortPairs_perm l).map _
    rw [weightedavg, weightedavg, weightedavgQ_perm _ _ _ _ hperm]

/-- Witness for C8 at a concrete 66-triple list. -/
theorem one_bin_of_66_witness :
    chunks 66 (sortPairs (List.replicate 66 ((0 : ℚ), (0 : ℚ), (1 : ℚ)))) =
      [sortPairs (List.replicate 66 ((0 : ℚ), (0 : ℚ), (1 : ℚ)))] ∧
    weightedavg
        ((sortPairs (List.replicate 66 ((0 : ℚ), (0 : ℚ), (1 : ℚ)))).map fun p => p.2.1)
        ((sortPairs (List.replicate 66 ((0 : ℚ), (0 : ℚ), (1 : ℚ)))).map fun p => p.2.2) =
      weightedavg
        ((List.replicate 66 ((0 : ℚ), (0 : ℚ), (1 : ℚ))).map fun p => p.2.1)
        ((List.replicate 66 ((0 : ℚ), (0 : ℚ), (1 : ℚ))).map fun p => p.2.2) :=
  one_bin_of_66 (List.replicate 66 ((0 : ℚ), (0 : ℚ), (1 : ℚ))) (by simp)

/-- Embedding of the burn-in trim of the chains: the code computes
`burn = int(burn_fraction * chain.shape[0])` and keeps `chain[burn:]`;
for a nonnegative fraction the Python `int` conversion is the floor.
The slice is total: it never raises, whatever the fraction or length. -/
def trim {α : Type} (c : List α) (f : ℚ) : List α :=
  c.drop (Int.toNat ⌊f * (c.length : ℚ)⌋)

/-- C4 (amended): for `burn_fraction ∈ [0, 1)` the trim of a chain is
the suffix starting at `⌊burn_fraction * num_rows⌋`: the dropped prefix
has that length and prepending it restores the chain, and a 4-row chain
with fraction `1/4` keeps exactly the rows at indices 1, 2, 3.  The
operation is total — it does not fail on any input (see the
counterexample theorem for the failure clause of the original claim). -/
theorem trim_suffix {α : Type} (c : List α) (f : ℚ) (h0 : 0 ≤ f) (h1 : f < 1) :
    c.take (Int.toNat ⌊f * (c.length : ℚ)⌋) ++ trim c f = c ∧
    (trim c f).length = c.length - Int.toNat ⌊f * (c.length : ℚ)⌋ ∧
    (f = 1 / 4 → c.length = 4 → trim c f = c.drop 1) := by
  refine ⟨List.take_append_drop _ _, ?_, ?_⟩
  · rw [trim, List.length_drop]
  · intro hf hc
    rw [trim, hf, hc]
    norm_num

/-- Witness for C4 at a concrete 4-row chain with fraction `1/4`. -/
theorem trim_suffix_witness :
    [(10 : ℚ), 20, 30, 40].take
        (Int.toNat ⌊(1 / 4 : ℚ) * (([(10 : ℚ), 20, 30, 40] : List ℚ).length : ℚ)⌋) ++
      trim [(10 : ℚ), 20, 30, 40] (1 / 4) = [(10 : ℚ), 20, 30, 40] ∧
    (trim [(10 : ℚ), 20, 30, 40] (1 / 4)).length =
      ([(10 : ℚ), 20, 30, 40] : List ℚ).length -
        Int.toNat ⌊(1 / 4 : ℚ) * (([(10 : ℚ), 20, 30, 40] : List ℚ).length : ℚ)⌋ ∧
    ((1 / 4 : ℚ) = 1 / 4 → ([(10 : ℚ), 20, 30, 40] : List ℚ).length = 4 →
      trim [(10 : ℚ), 20, 30, 40] (1 / 4) = [(10 : ℚ), 20, 30, 40].drop 1) :=
  trim_suffix [(10 : ℚ), 20, 30, 40] (1 / 4) (by norm_num) (by norm_num)

/-- Counterexample for C4 as stated: `trim` does not fail on a zero-row
chain nor on a burn fraction outside `[0, 1)` — on both inputs it
returns a value (the empty list) instead of failing. -/
theorem trim_total_counterexample :
    trim ([] : List ℚ) (1 / 4) = [] ∧ trim [(1 : ℚ), 2] (3 / 2) = [] := by
  constructor
  · simp [trim]
  · show List.drop (Int.toNat ⌊(3 / 2 : ℚ) * ((2 : ℕ) : ℚ)⌋) [(1 : ℚ), 2] = []
    norm_num

/-- Embedding of `get_HD_curve(zeta)` of the notebook: convert the
angle `zeta` (degrees) to radians, form `xip = (1 - cos)/2`, compute
`HD = 3*(1/3 + xip*(log(xip) - 1/6))` and return `HD/2`. -/
noncomputable def get_HD_curve (zeta : ℝ) : ℝ :=
  let coszeta := Real.cos (zeta * Real.pi / 180)
  let xip := (1 - coszeta) / 2
  let HD := 3 * (1 / 3 + xip * (Real.log xip - 1 / 6))
  HD / 2

/-- Specification reference form of the Hellings–Downs template:
`(3/2) * (1/3 + x*(ln x - 1/6))` with `x = (1 - cos ζ)/2`. -/
noncomputable def hellings_downs_spec (zeta : ℝ) : ℝ :=
  (3 / 2) * (1 / 3 + (1 - Real.cos (zeta * Real.pi / 180)) / 2 *
    (Real.log ((1 - Real.cos (zeta * Real.pi / 180)) / 2) - 1 / 6))

lemma get_HD_curve_eq (z : ℝ) :
    get_HD_curve z = 3 * (1 / 3 + (1 - Real.cos (z * Real.pi / 180)) / 2 *
      (Real.log ((1 - Real.cos (z * Real.pi / 180)) / 2) - 1 / 6)) / 2 := rfl

lemma get_HD_curve_continuous : Continuous get_HD_curve := by
  have hx : Continuous fun z : ℝ => (1 - Real.cos (z * Real.pi / 180)) / 2 :=
    (continuous_const.sub (Real.continuous_cos.comp
      ((continuous_id.mul continuous_const).div_const 180))).div_const 2
  have hml : Continuous fun z : ℝ => (1 - Real.cos (z * Real.pi / 180)) / 2 *
      Real.log ((1 - Real.cos (z * Real.pi / 180)) / 2) :=
    Real.continuous_mul_log.comp hx
  have heq : get_HD_curve = fun z : ℝ =>
      3 * (1 / 3 + ((1 - Real.cos (z * Real.pi / 180)) / 2 *
        Real.log ((1 - Real.cos (z * Real.pi / 180)) / 2) -
        (1 - Real.cos (z * Real.pi / 180)) / 2 * (1 / 6))) / 2 := by
    funext z
    rw [get_HD_curve_eq]
    ring
  rw [heq]
  exact (continuous_const.mul (continuous_const.add
    (hml.sub (hx.mul continuous_const)))).div_const 2

/-- C3: the notebook Hellings–Downs curve equals the closed spec form
`(3/2)*(1/3 + x*(ln x - 1/6))`; it tends to `1/2` as the angle tends to
`0` from the right; it never exceeds `1/2` on the domain `(0°, 180°]`;
and at `180°` it equals exactly `1/4`. -/
theorem hellings_downs_properties :
    (∀ z : ℝ, get_HD_curve z = hellings_downs_spec z) ∧
    Filter.Tendsto get_HD_curve (nhdsWithin 0 (Set.Ioi 0)) (nhds (1 / 2)) ∧
    (∀ z : ℝ, 0 < z → z ≤ 180 → get_HD_curve z ≤ 1 / 2) ∧
    get_HD_curve 180 = 1 / 4 := by
  refine ⟨?_, ?_, ?_, ?_⟩
  · intro z
    rw [get_HD_curve_eq, hellings_downs_spec]
    ring
  · have h0 : get_HD_curve 0 = 1 / 2 := by
      rw [get_HD_curve_eq]
      rw [zero_mul, zero_div, Real.cos_zero]
      norm_num [Real.log_zero]
    have := (get_HD_curve_continuous.tendsto 0).mono_left
      (nhdsWithin_le_nhds (s := Set.Ioi (0 : ℝ)))
    rwa [h0] at this
  · intro z hz hz180
    rw [get_HD_curve_eq]
    have hπ := Real.pi_pos
    have htπ : z * Real.pi / 180 ≤ Real.pi := by
      rw [div_le_iff (by norm_num : (0 : ℝ) < 180)]
      nlinarith
    have ht0 : 0 < z * Real.pi / 180 := by positivity
    have hc1 : Real.cos (z * Real.pi / 180) < 1 := by
      have := Real.cos_lt_cos_of_nonneg_of_le_pi (le_refl 0) htπ ht0
      rwa [Real.cos_zero] at this
    have hcm1 : -1 ≤ Real.cos (z * Real.pi / 180) :=
      Real.neg_one_le_cos (z * Real.pi / 180)
    have hx0 : 0 < (1 - Real.cos (z * Real.pi / 180)) / 2 := by linarith
    have hx1 : (1 - Real.cos (z * Real.pi / 180)) / 2 ≤ 1 := by linarith
    have hlog : Real.log ((1 - Real.cos (z * Real.pi / 180)) / 2) ≤ 0 :=
      Real.log_nonpos hx0.le hx1
    have key : (1 - Real.cos (z * Real.pi / 180)) / 2 *
        (Real.log ((1 - Real.cos (z * Real.pi / 180)) / 2) - 1 / 6) ≤ 0 := by
      nlinarith [mul_nonneg hx0.le
        (by linarith : (0 : ℝ) ≤ 1 / 6 - Real.log ((1 - Real.cos (z * Real.pi / 180)) / 2))]
    linarith
  · rw [get_HD_curve_eq]
    have h180 : (180 : ℝ) * Real.pi / 180 = Real.pi := by ring
    rw [h180, Real.cos_pi]
    norm_num

/-- Witness for C3 at the angle `180°`, inside the domain `(0°, 180°]`. -/
theorem hellings_downs_properties_witness : get_HD_curve 180 ≤ 1 / 2 :=
  hellings_downs_properties.2.2.1 180 (by norm_num) (by norm_num)

/-- Sorting step of `np.percentile`: the samples in ascending order. -/
def sortQ (s : List ℚ) : List ℚ :=
  s.mergeSort fun x y => decide (x ≤ y)

/-- Linear interpolation between order statistics, as `np.percentile`
performs it at the fractional position `h`: with `i = ⌊h⌋`, report
`a[i] + (h - i) * (a[i+1] - a[i])`. -/
def interp (a : List ℚ) (h : ℚ) : ℚ :=
  a.getD (Int.toNat ⌊h⌋) 0 +
    (h - (⌊h⌋ : ℚ)) * (a.getD (Int.toNat ⌊h⌋ + 1) 0 - a.getD (Int.toNat ⌊h⌋) 0)

/-- Embedding of `np.percentile(s, q)` with the default linear
interpolation: sort the samples and interpolate at position
`(len(s) - 1) * q / 100`. -/
def percentile (s : List ℚ) (q : ℚ) : ℚ :=
  interp (sortQ s) (((s.length : ℚ) - 1) * q / 100)

/-- Embedding of `upper = 10**np.percentile(samples, q)` in the
single-pulsar notebook: the quantile of the log-amplitude samples,
exponentiated base 10. -/
noncomputable def upper (s : List ℚ) (q : ℚ) : ℝ :=
  (10 : ℝ) ^ ((percentile s q : ℚ) : ℝ)

lemma sortQ_sorted (s : List ℚ) : (sortQ s).Pairwise fun x y => x ≤ y := by
  have h := @List.sorted_mergeSort ℚ (fun x y : ℚ => decide (x ≤ y))
    (fun a b c h1 h2 => by
      simp only [decide_eq_true_eq] at h1 h2 ⊢
      exact le_trans h1 h2)
    (fun a b => by
      simp only [Bool.or_eq_true, decide_eq_true_eq]
      exact le_total a b)
    s
  exact h.imp fun hab => by simpa using hab

lemma sortQ_length (s : List ℚ) : (sortQ s).length = s.length :=
  List.length_mergeSort s

lemma sorted_getD_mono (a : List ℚ) (ha : a.Pairwise fun x y => x ≤ y)
    (i j : ℕ) (hij : i ≤ j) (hj : j < a.length) :
    a.getD i 0 ≤ a.getD j 0 := by
  rcases Nat.eq_or_lt_of_le hij with h | h
  · subst h; exact le_refl _
  · have hi : i < a.length := lt_trans h hj
    rw [List.getD_eq_getElem a 0 hi, List.getD_eq_getElem a 0 hj]
    have := List.pairwise_iff_get.mp ha ⟨i, hi⟩ ⟨j, hj⟩ h
    simpa using this

lemma interp_mono (a : List ℚ) (ha : a.Pairwise fun x y => x ≤ y)
    (hn : 1 ≤ a.length) (h1 h2 : ℚ) (h10 : 0 ≤ h1) (h12 : h1 ≤ h2)
    (h2n : h2 ≤ (a.length : ℚ) - 1) :
    interp a h1 ≤ interp a h2 := by
  have hf10 : 0 ≤ ⌊h1⌋ := Int.floor_nonneg.mpr h10
  have hf12 : ⌊h1⌋ ≤ ⌊h2⌋ := Int.floor_le_floor h12
  have hf20 : 0 ≤ ⌊h2⌋ := le_trans hf10 hf12
  have hfn : ⌊h2⌋ ≤ (a.length : ℤ) - 1 := by
    have hcast : ((a.length : ℚ) - 1) = (((a.length : ℤ) - 1 : ℤ) : ℚ) := by push_cast; ring
    have h := Int.floor_le_floor h2n
    rwa [hcast, Int.floor_intCast] at h
  have hi1c : ((Int.toNat ⌊h1⌋ : ℤ)) = ⌊h1⌋ := Int.toNat_of_nonneg hf10
  have hi2c : ((Int.toNat ⌊h2⌋ : ℤ)) = ⌊h2⌋ := Int.toNat_of_nonneg hf20
  have hi2n : Int.toNat ⌊h2⌋ < a.length := by omega
  have hg10 : 0 ≤ h1 - (⌊h1⌋ : ℚ) := by linarith [Int.floor_le h1]
  have hg11 : h1 - (⌊h1⌋ : ℚ) < 1 := by linarith [Int.lt_floor_add_one h1]
  have hg20 : 0 ≤ h2 - (⌊h2⌋ : ℚ) := by linarith [Int.floor_le h2]
  rcases eq_or_lt_of_le hf12 with heq | hlt
  · -- same floor: interpolation within one segment
    rw [interp, interp, ← heq]
    rcases Nat.lt_or_ge (Int.toNat ⌊h1⌋ + 1) a.length with hin | hout
    · have hAB : a.getD (Int.toNat ⌊h1⌋) 0 ≤ a.getD (Int.toNat ⌊h1⌋ + 1) 0 :=
        sorted_getD_mono a ha _ _ (Nat.le_succ _) hin
      nlinarith [mul_nonneg (sub_nonneg.mpr h12) (sub_nonneg.mpr hAB)]
    · -- the position is the last index: both points coincide
      have hflast : ⌊h1⌋ = (a.length : ℤ) - 1 := by omega
      have hle : ((a.length : ℚ) - 1) ≤ h1 := by
        have := Int.floor_le h1
        rw [hflast] at this
        push_cast at this
        linarith
      have hh12 : h1 = h2 := le_antisymm h12 (by linarith)
      rw [hh12]
  · -- different floors: pass through the intermediate order statistics
    have hi12 : Int.toNat ⌊h1⌋ + 1 ≤ Int.toNat ⌊h2⌋ := by omega
    have step1 : interp a h1 ≤ a.getD (Int.toNat ⌊h1⌋ + 1) 0 := by
      rw [interp]
      have hin : Int.toNat ⌊h1⌋ + 1 < a.length := by omega
      have hAB : a.getD (Int.toNat ⌊h1⌋) 0 ≤ a.getD (Int.toNat ⌊h1⌋ + 1) 0 :=
        sorted_getD_mono a ha _ _ (Nat.le_succ _) hin
      nlinarith [mul_nonneg (by linarith : (0 : ℚ) ≤ 1 - (h1 - (⌊h1⌋ : ℚ)))
        (sub_nonneg.mpr hAB)]
    have step2 : a.getD (Int.toNat ⌊h1⌋ + 1) 0 ≤ a.getD (Int.toNat ⌊h2⌋) 0 :=
      sorted_getD_mono a ha _ _ hi12 hi2n
    have step3 : a.getD (Int.toNat ⌊h2⌋) 0 ≤ interp a h2 := by
      rw [interp]
      rcases Nat.lt_or_ge (Int.toNat ⌊h2⌋ + 1) a.length with hin | hout
      · have hAB : a.getD (Int.toNat ⌊h2⌋) 0 ≤ a.getD (Int.toNat ⌊h2⌋ + 1) 0 :=
          sorted_getD_mono a ha _ _ (Nat.le_succ _) hin
        nlinarith [mul_nonneg hg20 (sub_nonneg.mpr hAB)]
      · have hflast : ⌊h2⌋ = (a.length : ℤ) - 1 := by omega
        have hle : ((a.length : ℚ) - 1) ≤ h2 := by
          have := Int.floor_le h2
          rw [hflast] at this
          push_cast at this
          linarith
        have hg2z : h2 - (⌊h2⌋ : ℚ) = 0 := by
          rw [hflast]
          push_cast
          linarith
        rw [hg2z, zero_mul, add_zero]
    exact le_trans step1 (le_trans step2 step3)

/-- C9: for a nonempty sample list and quantiles `0 ≤ q1 ≤ q2 ≤ 100`,
the reported upper limit `10 ** percentile(s, q)` is monotonically
non-decreasing in the requested quantile. -/
theorem upper_mono_in_quantile (s : List ℚ) (q1 q2 : ℚ) (hne : s ≠ [])
    (h0 : 0 ≤ q1) (h12 : q1 ≤ q2) (h100 : q2 ≤ 100) :
    upper s q1 ≤ upper s q2 := by
  have hn : 1 ≤ s.length := List.length_pos.mpr hne
  have hn1 : (1 : ℚ) ≤ (s.length : ℚ) := by exact_mod_cast hn
  have hperc : percentile s q1 ≤ percentile s q2 := by
    rw [percentile, percentile]
    apply interp_mono (sortQ s) (sortQ_sorted s) (by rw [sortQ_length]; exact hn)
    · apply div_nonneg (mul_nonneg (by linarith) h0) (by norm_num)
    · have hmul : ((s.length : ℚ) - 1) * q1 ≤ ((s.length : ℚ) - 1) * q2 :=
        mul_le_mul_of_nonneg_left h12 (by linarith)
      linarith
    · rw [sortQ_length]
      have hmul : ((s.length : ℚ) - 1) * q2 ≤ ((s.length : ℚ) - 1) * 100 :=
        mul_le_mul_of_nonneg_left h100 (by linarith)
      linarith
  rw [upper, upper, Real.rpow_le_rpow_left_iff (by norm_num : (1 : ℝ) < 10)]
  exact_mod_cast hperc

/-- Witness for C9 at `s = [-15, -14]`, `q1 = 90`, `q2 = 95`. -/
theorem upper_mono_in_quantile_witness :
    upper [(-15 : ℚ), -14] 90 ≤ upper [(-15 : ℚ), -14] 95 :=
  upper_mono_in_quantile [(-15 : ℚ), -14] 90 95 (by decide) (by norm_num)
    (by norm_num) (by norm_num)

/-- Membership filter of one fixed-width bin of `bin_crosscorr`: the
`(ξ, ρ, σ)` triples of the zipped arrays whose `ξ` satisfies
`z <= ξ < z + 10`. -/
def binMembers (z : ℚ) (xi rho sig : List ℚ) : List (ℚ × ℚ × ℚ) :=
  (xi.zip (rho.zip sig)).filter fun p => decide (z ≤ p.1) && decide (p.1 < z + 10)

/-- Loop of `bin_crosscorr` over the bin starts `zeta[:-1]`: for each
start `z` it takes `weightedavg` of the members of the bin at `z`; an
empty bin makes `weightedavg` divide zero by zero, which raises in
Python and is modelled as `none` for the whole loop. -/
def binLoop (xi rho sig : List ℚ) : List ℚ → Option (List (ℚ × ℚ))
  | [] => some []
  | z :: zs =>
      match weightedavgQ ((binMembers z xi rho sig).map fun p => p.2.1)
          ((binMembers z xi rho sig).map fun p => p.2.2),
        binLoop xi rho sig zs with
      | some v, some rest => some (v :: rest)
      | _, _ => none

/-- Embedding of `bin_crosscorr(zeta, xi, rho, sig)`: slots for the
bins started at `zeta[:-1]`, the uncertainty passed through `np.sqrt`,
followed by the last slot of the preallocated `np.zeros(len(zeta))`
output arrays, which the loop never writes. -/
noncomputable def bin_crosscorr (zeta xi rho sig : List ℚ) : Option (List (ℚ × ℝ)) :=
  match binLoop xi rho sig zeta.dropLast with
  | none => none
  | some l =>
      some ((l.map fun p => (p.1, Real.sqrt ((p.2 : ℚ) : ℝ))) ++
        if zeta = [] then [] else [((0 : ℚ), (0 : ℝ))])

lemma weightedavgQ_nil : weightedavgQ [] [] = none := by
  simp [weightedavgQ, wavgAcc]

lemma binLoop_none (xi rho sig : List ℚ) (zs : List ℚ) (z : ℚ) (hz : z ∈ zs)
    (hempty : binMembers z xi rho sig = []) : binLoop xi rho sig zs = none := by
  induction zs with
  | nil => simp at hz
  | cons w ws ih =>
      rcases List.mem_cons.mp hz with h | h
      · subst h
        rw [binLoop, hempty]
        simp only [List.map_nil, weightedavgQ_nil]
      · rw [binLoop, ih h]
        cases weightedavgQ ((binMembers w xi rho sig).map fun p => p.2.1)
          ((binMembers w xi rho sig).map fun p => p.2.2) <;> rfl

/-- C5 (amended): in the fixed-width binning, a bin with no members
among those the loop visits (the starts `zeta[:-1]`) makes the whole
computation fail — it is never silently reported as zero; however the
slot of the last `zeta` entry is never computed at all and is always
reported as the silent pair `(0, 0)` left by `np.zeros`. -/
theorem bin_crosscorr_empty_bin (zeta xi rho sig : List ℚ) :
    (∀ z ∈ zeta.dropLast, binMembers z xi rho sig = [] →
      bin_crosscorr zeta xi rho sig = none) ∧
    (∀ l : List (ℚ × ℝ), zeta ≠ [] → bin_crosscorr zeta xi rho sig = some l →
      l.getLast? = some (0, 0)) := by
  constructor
  · intro z hz hempty
    rw [bin_crosscorr, binLoop_none xi rho sig zeta.dropLast z hz hempty]
  · intro l hne hsome
    rw [bin_crosscorr] at hsome
    cases hbl : binLoop xi rho sig zeta.dropLast with
    | none => rw [hbl] at hsome; exact absurd hsome (by simp)
    | some l0 =>
        rw [hbl] at hsome
        simp only [if_neg hne] at hsome
        have hl := Option.some.inj hsome
        rw [← hl, List.getLast?_concat]

/-- Witness for C5 at `zeta = [0, 20]` with a single pair at `ξ = 30`,
which belongs to no bin: the computation fails rather than report 0. -/
theorem bin_crosscorr_empty_bin_witness :
    bin_crosscorr [(0 : ℚ), 20] [(30 : ℚ)] [(1 : ℚ)] [(1 : ℚ)] = none :=
  (bin_crosscorr_empty_bin [(0 : ℚ), 20] [(30 : ℚ)] [(1 : ℚ)] [(1 : ℚ)]).1 0
    (by decide) (by norm_num [binMembers])

/-- Counterexample for C5 as stated: with `zeta = [0, 20]` and a single
pair at `ξ = 5`, the bin `[20, 30)` has no members, yet the operation
succeeds and silently reports `0` as that bin's weighted mean (the
second slot of the output). -/
theorem bin_crosscorr_silent_zero_counterexample :
    binMembers 20 [(5 : ℚ)] [(1 : ℚ)] [(1 : ℚ)] = [] ∧
    (bin_crosscorr [(0 : ℚ), 20] [(5 : ℚ)] [(1 : ℚ)] [(1 : ℚ)]).map
      (fun l => l.map fun p => p.1) = some [1, 0] := by
  constructor
  · norm_num [binMembers]
  · have h1 : binMembers 0 [(5 : ℚ)] [(1 : ℚ)] [(1 : ℚ)] = [(5, 1, 1)] := by
      norm_num [binMembers]
    have h2 : binLoop [(5 : ℚ)] [(1 : ℚ)] [(1 : ℚ)] ([(0 : ℚ), 20].dropLast) =
        some [(1, 1)] := by
      rw [show ([(0 : ℚ), 20].dropLast) = [(0 : ℚ)] from rfl, binLoop, h1]
      norm_num [weightedavgQ, wavgAcc, binLoop]
    rw [bin_crosscorr, h2]
    simp

/-- C10: membership of a triple in the bin started at `z` is exactly
`z ≤ ξ < z + 10`, independent of the spacing of the `zeta` values; with
consecutive starts `0` and `5` (spacing `5 < 10`) the pair at `ξ = 7`
belongs to both bins, so the fixed-width bins do not partition the
pairs. -/
theorem bin_membership_overlap :
    (∀ (z x r s : ℚ) (xi rho sig : List ℚ),
      (x, r, s) ∈ binMembers z xi rho sig ↔
        (x, r, s) ∈ xi.zip (rho.zip sig) ∧ z ≤ x ∧ x < z + 10) ∧
    ((0 : ℚ) ∈ ([0, 5, 15] : List ℚ).dropLast ∧
      (5 : ℚ) ∈ ([0, 5, 15] : List ℚ).dropLast ∧
      ((7 : ℚ), (1 : ℚ), (1 : ℚ)) ∈ binMembers 0 [7] [1] [1] ∧
      ((7 : ℚ), (1 : ℚ), (1 : ℚ)) ∈ binMembers 5 [7] [1] [1] ∧
      (5 : ℚ) - 0 < 10) := by
  constructor
  · intro z x r s xi rho sig
    simp [binMembers, List.mem_filter, and_assoc]
  · refine ⟨by decide, by decide, by norm_num [binMembers], by norm_num [binMembers], by norm_num⟩

end PTA
